import Mathlib

set_option maxRecDepth 40000

/-!
Verification of the JiKong RS485/Modbus BMS add-on core: the frame
extractor (transport.py buffer-parsing loop), the telemetry/identity
correlation logic (app/main.py), the register decoder (decoder.py), and
the device-address extraction (extract_device_address).

Byte streams are modelled as `List Nat` (one Nat per byte), timestamps as
rationals, and Python operations that can raise are modelled with
`Option`-returning functions.
-/

namespace JkBms

/-- The 4-byte magic marker 55 AA EB 90 that starts telemetry/identity
frames (transport.py, `HEADER`). -/
def HEADER : List Nat := [0x55, 0xAA, 0xEB, 0x90]

/-- Index of the earliest occurrence of `HEADER` in a byte buffer,
modelling Python `buffer.find(HEADER)` (with `none` for -1). -/
def findHeader : List Nat → Option Nat
  | [] => none
  | x :: xs => if (x :: xs).take 4 = HEADER then some 0 else (findHeader xs).map (· + 1)

/-- Total frame length determined by the subtype byte: 308 for subtype
0x02 (telemetry), 300 for every other subtype (transport.py,
`packet_len = 308 if pkt_type == 0x02 else 300`). -/
def pktLen (t : Nat) : Nat := if t = 2 then 308 else 300

/-- The no-marker truncation `buffer = buffer[-100:]`: retain only the
last 100 bytes of the buffer. -/
def tail100 (b : List Nat) : List Nat := b.drop (b.length - 100)

/-- Fuel-indexed version of the transport buffer-parsing loop
(transport.py, `TcpTransport.packets` inner `while True`).  Returns the
remaining buffer and the ordered list of emitted `(pkt_type, packet)`
pairs.  The fuel only serves termination; `buf.length` fuel always
suffices because every emitted frame consumes at least 300 bytes. -/
def processFuel (cap : Nat) : Nat → List Nat → List Nat × List (Nat × List Nat)
  | 0, buf => (buf, [])
  | fuel + 1, buf =>
    match findHeader buf with
    | none => (if cap < buf.length then tail100 buf else buf, [])
    | some i =>
      if buf.length < i + 6 then (buf, [])
      else if i + pktLen (buf.getD (i + 4) 0) ≤ buf.length then
        ((processFuel cap fuel (buf.drop (i + pktLen (buf.getD (i + 4) 0)))).1,
          (buf.getD (i + 4) 0, (buf.drop i).take (pktLen (buf.getD (i + 4) 0))) ::
            (processFuel cap fuel (buf.drop (i + pktLen (buf.getD (i + 4) 0)))).2)
      else (buf, [])

/-- One pass of the buffer-parsing loop on a buffer: emit every complete
frame, applying the no-marker truncation cap, and return the leftover
buffer together with the emitted frames. -/
def processBuffer (cap : Nat) (buf : List Nat) : List Nat × List (Nat × List Nat) :=
  processFuel cap buf.length buf

/-- Feeding one chunk: append the chunk to the buffer and run the
parsing loop (transport.py, `buffer.extend(chunk)` followed by the inner
loop). -/
def feedChunk (cap : Nat) (buf chunk : List Nat) : List Nat × List (Nat × List Nat) :=
  processBuffer cap (buf ++ chunk)

/-- Feed a list of chunks one at a time, threading the buffer through,
and collect all emitted frames in order. -/
def runChunks (cap : Nat) (buf : List Nat) : List (List Nat) → List (Nat × List Nat)
  | [] => []
  | c :: cs => (feedChunk cap buf c).2 ++ runChunks cap (feedChunk cap buf c).1 cs

/-- Exception-tracking variant of the parsing loop: the only raw index
access in the Python loop, `buffer[header_index + 4]`, is modelled with
`getElem?`, and `none` marks the would-raise outcome.  All other
operations (`find`, slicing, `del`) never raise in Python. -/
def processFuelE (cap : Nat) : Nat → List Nat → Option (List Nat × List (Nat × List Nat))
  | 0, buf => some (buf, [])
  | fuel + 1, buf =>
    match findHeader buf with
    | none => some (if cap < buf.length then tail100 buf else buf, [])
    | some i =>
      if buf.length < i + 6 then some (buf, [])
      else
        match buf[i + 4]? with
        | none => none
        | some t =>
          if i + pktLen t ≤ buf.length then
            match processFuelE cap fuel (buf.drop (i + pktLen t)) with
            | none => none
            | some r => some (r.1, (t, (buf.drop i).take (pktLen t)) :: r.2)
          else some (buf, [])

/-- One exception-tracked pass of the buffer-parsing loop. -/
def processBufferE (cap : Nat) (buf : List Nat) :
    Option (List Nat × List (Nat × List Nat)) :=
  processFuelE cap buf.length buf

/-! ### Device-address extraction (app/main.py and decoder.py,
`extract_device_address`) -/

/-- `struct.unpack_from("<I", p, i)`: the little-endian unsigned 32-bit
value at byte offset `i`, or `none` when fewer than 4 bytes are
available there (the case in which `unpack_from` raises). -/
def unpackU32from (p : List Nat) (i : Nat) : Option Nat :=
  if i + 4 ≤ p.length then
    some (p.getD i 0 + 256 * p.getD (i + 1) 0 + 65536 * p.getD (i + 2) 0 +
      16777216 * p.getD (i + 3) 0)
  else none

/-- `extract_device_address`: when the packet has at least 274 bytes,
read the little-endian u32 at bytes 270..273; otherwise (or if the
unpack would raise, which the outer `except` turns into 0) return 0. -/
def extract_device_address (p : List Nat) : Nat :=
  if 274 ≤ p.length then
    match unpackU32from p 270 with
    | some v => v
    | none => 0
  else 0

/-! ### The telemetry/identity correlation loop
(src/JiKong-Modbus-BMS-PB2A16S30P-addon/app/main.py, `main`) -/

/-- Correlation state of `main`: the single `pending_realtime_packet`
slot and `last_realtime_time`. -/
structure EngState where
  pending : Option (List Nat)
  lastRealtimeTime : ℚ
deriving DecidableEq

/-- Observable outcome of processing one frame: the ordered
`process_and_publish` calls as `(device_id, packet_type, bytes)`
triples, the overwrite warnings for a still-pending 0x02, and the
expiry drops of a stale 0x02. -/
structure EngOut where
  published : List (Nat × Nat × List Nat)
  overwriteDrops : Nat
  staleDrops : Nat
deriving DecidableEq

/-- Processing one `(pkt_type, packet)` frame arriving at time `now`
(main.py lines 85-130).  A 0x02 frame is stashed, warning if it
overwrites a pending one; a 0x01 frame is published under its extracted
device id and then releases the pending 0x02 under the same id when
`time_diff < PACKET_EXPIRE_TIME` (the Python truthiness test
`if pending_realtime_packet:` treats an empty pending packet like an
empty slot); any other type is ignored. -/
def engineStep (expiry : ℚ) (s : EngState) (now : ℚ) (pktType : Nat) (packet : List Nat) :
    EngState × EngOut :=
  if pktType = 2 then
    (⟨some packet, now⟩, ⟨[], if s.pending.isSome then 1 else 0, 0⟩)
  else if pktType = 1 then
    let devId := extract_device_address packet
    match s.pending with
    | some p =>
      if p = [] then (s, ⟨[(devId, 1, packet)], 0, 0⟩)
      else if now - s.lastRealtimeTime < expiry then
        (⟨none, s.lastRealtimeTime⟩, ⟨[(devId, 1, packet), (devId, 2, p)], 0, 0⟩)
      else
        (⟨none, s.lastRealtimeTime⟩, ⟨[(devId, 1, packet)], 0, 1⟩)
    | none => (s, ⟨[(devId, 1, packet)], 0, 0⟩)
  else (s, ⟨[], 0, 0⟩)

/-! ### Spec-modelled correlation engine with command corroboration -/

/-- Modelled from the spec: the frames consumed by the Correlation
Engine of spec section 4.2, with the identifying field already
extracted. -/
inductive SpecFrame where
  | telemetry (bytes : List Nat)
  | identity (selfId : Nat) (bytes : List Nat)
  | command (targetId : Nat) (bytes : List Nat)
deriving DecidableEq

/-- Modelled from the spec: the Correlation Engine state of spec section
4.2 (single-slot PendingTelemetry, a PendingCommand map keyed by target
id, `last_commanded_id` and `last_command_time`).  No command-holding
code exists under src/ — only the `BMS_MAP[0x10]` registry declaration —
so this component is modelled from the spec's words. -/
structure SpecEngState where
  pendingTel : Option (List Nat × ℚ)
  pendingCmd : List (Nat × (List Nat × ℚ))
  lastCommandedId : Nat
  lastCommandTime : Option ℚ
deriving DecidableEq

/-- Modelled from the spec: an attributed record released by the
engine — kind 0x10 for a corroborated command, 0x01 for the identity
frame itself, 0x02 for released telemetry. -/
structure SpecRecord where
  deviceId : Nat
  kind : Nat
  bytes : List Nat
deriving DecidableEq

/-- Modelled from the spec: the attribution decision table of spec
section 4.2, evaluated top-to-bottom — self-reported id 0 wins, then
a stale (or absent) last command forces target 0, otherwise the most
recently commanded id. -/
def specTarget (expiry : ℚ) (s : SpecEngState) (now : ℚ) (selfId : Nat) : Nat :=
  if selfId = 0 then 0
  else
    match s.lastCommandTime with
    | none => 0
    | some tc => if expiry < now - tc then 0 else s.lastCommandedId

/-- Modelled from the spec: one transition of the Correlation Engine of
spec section 4.2.  Returns the new state, the ordered released records,
and the number of stale drops. -/
def specStep (expiry : ℚ) (s : SpecEngState) (now : ℚ) :
    SpecFrame → SpecEngState × (List SpecRecord × Nat)
  | .command x bs =>
    (⟨s.pendingTel, (x, (bs, now)) :: s.pendingCmd.filter (fun en => en.1 ≠ x),
      x, some now⟩, ([], 0))
  | .telemetry bs =>
    (⟨some (bs, now), s.pendingCmd, s.lastCommandedId, s.lastCommandTime⟩,
      ([], if s.pendingTel.isSome then 1 else 0))
  | .identity selfId bs =>
    let target := specTarget expiry s now selfId
    let cmdRecords : List SpecRecord :=
      match s.pendingCmd.lookup target with
      | some (cbs, _) => [⟨target, 0x10, cbs⟩]
      | none => []
    let remaining := s.pendingCmd.filter
      (fun en => en.1 ≠ target ∧ ¬ expiry < now - en.2.2)
    let telPart : List SpecRecord × Nat :=
      match s.pendingTel with
      | some (tb, tt) => if now - tt ≤ expiry then ([⟨target, 2, tb⟩], 0) else ([], 1)
      | none => ([], 0)
    (⟨none, remaining, s.lastCommandedId, s.lastCommandTime⟩,
      (cmdRecords ++ [⟨target, 1, bs⟩] ++ telPart.1, telPart.2))

/-! ### Register decoder (src/app/decoder.py, `get_value` and
`decode_packet`) -/

/-- The numeric encodings appearing in `BMS_MAP` dtype strings:
`B`, `H`, `h`, `I`, `i` and length-prefixed `s`. -/
inductive Dty where
  | u8
  | u16
  | i16
  | u32
  | i32
  | str (n : Nat)
deriving DecidableEq

/-- Byte width of each dtype, as used by `struct.unpack_from` to decide
whether the read fits in the buffer. -/
def dtySize : Dty → Nat
  | .u8 => 1
  | .u16 => 2
  | .i16 => 2
  | .u32 => 4
  | .i32 => 4
  | .str n => n

/-- A decoded raw value: an integer, or a byte string for `s` dtypes. -/
inductive Val where
  | num (v : Int)
  | bytes (bs : List Nat)
deriving DecidableEq

/-- Little-endian value of `n` bytes starting at offset `i`. -/
def leNat (p : List Nat) (i : Nat) : Nat → Nat
  | 0 => 0
  | n + 1 => p.getD i 0 + 256 * leNat p (i + 1) n

/-- Two's-complement reinterpretation of a `w`-byte unsigned value. -/
def signedOfNat (w v : Nat) : Int :=
  if 2 ^ (8 * w - 1) ≤ v then (v : Int) - 2 ^ (8 * w) else (v : Int)

/-- The raw value read at `i` for a dtype, assuming it fits. -/
def readVal (p : List Nat) (i : Nat) : Dty → Val
  | .u8 => .num (p.getD i 0)
  | .u16 => .num (leNat p i 2)
  | .i16 => .num (signedOfNat 2 (leNat p i 2))
  | .u32 => .num (leNat p i 4)
  | .i32 => .num (signedOfNat 4 (leNat p i 4))
  | .str n => .bytes ((p.drop i).take n)

/-- `get_value(data, offset, dtype)`: read the value at `offset`, or
`none` when the read does not fit (the case in which indexing or
`struct.unpack_from` raises and the surrounding `except` returns
`None`). -/
def get_value (data : List Nat) (offset : Nat) (dty : Dty) : Option Val :=
  if offset + dtySize dty ≤ data.length then some (readVal data offset dty) else none

/-- One `BMS_MAP` registry entry: display name, dtype and converter.
The converter returns `none` exactly when the Python scaling function
would raise. -/
structure RegEntry where
  name : String
  dty : Dty
  conv : Val → Option Val

/-- The per-entry loop of `decode_packet` (decoder.py lines 74-99) over
a registry given as an offset-keyed association list in ascending offset
order (Python iterates `sorted(register_def.keys())` of a dict, so
offsets are distinct and ascending): skip entries whose absolute offset
`6 + offset` is not below the packet length, skip entries whose raw read
fails, and otherwise bind the converted value — falling back to the raw
value when the converter raises. -/
def decode_fields (packet : List Nat) : List (Nat × RegEntry) → List (String × Val)
  | [] => []
  | (off, e) :: rest =>
    if packet.length ≤ 6 + off then decode_fields packet rest
    else
      match get_value packet (6 + off) e.dty with
      | none => decode_fields packet rest
      | some raw =>
        (e.name, match e.conv raw with | some v => v | none => raw) ::
          decode_fields packet rest

/-- `decode_packet(packet, packet_type)`: an unknown packet type yields
the empty mapping, a known one runs the per-entry loop on its registry. -/
def decode_packet (regmap : List (Nat × List (Nat × RegEntry))) (packet : List Nat)
    (packetType : Nat) : List (String × Val) :=
  match regmap.lookup packetType with
  | none => []
  | some reg => decode_fields packet reg

/-- What a single registry entry contributes on its own: `none` when it
is skipped (out-of-range offset or failed raw read), otherwise the
converted-or-raw value. -/
def entryResult (packet : List Nat) (off : Nat) (e : RegEntry) : Option Val :=
  if packet.length ≤ 6 + off then none
  else
    match get_value packet (6 + off) e.dty with
    | none => none
    | some raw => some (match e.conv raw with | some v => v | none => raw)

/-- Lookup of a field name in the decoded payload.  The Python payload
is a dict; under the distinct-names hypothesis used by the decoder
theorems, first-match lookup over the binding list agrees with dict
lookup. -/
def payloadLookup (nm : String) : List (String × Val) → Option Val
  | [] => none
  | (k, v) :: rest => if nm = k then some v else payloadLookup nm rest

/-! ### Elementary list lemmas used throughout -/

lemma getD_drop_add (l : List Nat) (i k : Nat) : (l.drop i).getD k 0 = l.getD (i + k) 0 := by
  induction l generalizing i with
  | nil => simp
  | cons x xs ih =>
    cases i with
    | zero => simp
    | succ j =>
      simp only [List.drop_succ_cons]
      rw [ih]
      have hjk : j + 1 + k = (j + k) + 1 := by omega
      rw [hjk, List.getD_cons_succ]

lemma getD_take_lt (l : List Nat) (n k : Nat) (h : k < n) : (l.take n).getD k 0 = l.getD k 0 := by
  induction l generalizing n k with
  | nil => simp
  | cons x xs ih =>
    cases n with
    | zero => omega
    | succ m =>
      cases k with
      | zero => simp
      | succ j =>
        simp only [List.take_succ_cons, List.getD_cons_succ]
        exact ih m j (by omega)

lemma getD_append_lt (l e : List Nat) (k : Nat) (h : k < l.length) :
    (l ++ e).getD k 0 = l.getD k 0 := by
  induction l generalizing k with
  | nil => simp at h
  | cons x xs ih =>
    cases k with
    | zero => simp
    | succ j =>
      simp only [List.cons_append, List.getD_cons_succ]
      exact ih j (by simpa using Nat.lt_of_succ_lt_succ h)

lemma getD_append_add (p u : List Nat) (k : Nat) :
    (p ++ u).getD (p.length + k) 0 = u.getD k 0 := by
  induction p with
  | nil => simp
  | cons x xs ih =>
    simp only [List.cons_append, List.length_cons]
    have : xs.length + 1 + k = (xs.length + k) + 1 := by omega
    rw [this, List.getD_cons_succ, ih]

lemma take_append_of_le (l e : List Nat) (n : Nat) (h : n ≤ l.length) :
    (l ++ e).take n = l.take n := by
  induction l generalizing n with
  | nil =>
    have : n = 0 := by simpa using h
    simp [this]
  | cons x xs ih =>
    cases n with
    | zero => simp
    | succ m =>
      simp only [List.cons_append, List.take_succ_cons]
      rw [ih m (by simpa using Nat.succ_le_succ_iff.mp h)]

lemma drop_append_of_le (l e : List Nat) (n : Nat) (h : n ≤ l.length) :
    (l ++ e).drop n = l.drop n ++ e := by
  induction l generalizing n with
  | nil =>
    have : n = 0 := by simpa using h
    simp [this]
  | cons x xs ih =>
    cases n with
    | zero => simp
    | succ m =>
      simp only [List.cons_append, List.drop_succ_cons]
      exact ih m (by simpa using Nat.succ_le_succ_iff.mp h)

lemma drop_append_add (p u : List Nat) (k : Nat) :
    (p ++ u).drop (p.length + k) = u.drop k := by
  induction p with
  | nil => simp
  | cons x xs ih =>
    simp only [List.cons_append, List.length_cons]
    have : xs.length + 1 + k = (xs.length + k) + 1 := by omega
    rw [this, List.drop_succ_cons, ih]

/-! ### Basic `findHeader` facts -/

lemma findHeader_nil : findHeader [] = none := rfl

lemma findHeader_cons (x : Nat) (xs : List Nat) :
    findHeader (x :: xs) =
      if (x :: xs).take 4 = HEADER then some 0 else (findHeader xs).map (· + 1) := rfl

lemma take4_header_length {l : List Nat} (h : l.take 4 = HEADER) : 4 ≤ l.length := by
  have hl : (l.take 4).length = 4 := by rw [h]; rfl
  simp only [List.length_take] at hl
  omega

lemma findHeader_some_take {b : List Nat} {i : Nat} (h : findHeader b = some i) :
    (b.drop i).take 4 = HEADER := by
  induction b generalizing i with
  | nil => simp [findHeader_nil] at h
  | cons x xs ih =>
    rw [findHeader_cons] at h
    by_cases hc : (x :: xs).take 4 = HEADER
    · rw [if_pos hc] at h
      cases h
      simpa using hc
    · rw [if_neg hc] at h
      cases hf : findHeader xs with
      | none => rw [hf] at h; exact absurd h (by simp)
      | some j =>
        rw [hf] at h
        have hij : i = j + 1 := by
          cases h
          rfl
        subst hij
        simpa using ih hf

lemma findHeader_some_le {b : List Nat} {i : Nat} (h : findHeader b = some i) :
    i + 4 ≤ b.length := by
  have := take4_header_length (findHeader_some_take h)
  simp only [List.length_drop] at this
  omega

lemma findHeader_append_some {b : List Nat} {i : Nat} (e : List Nat)
    (h : findHeader b = some i) : findHeader (b ++ e) = some i := by
  induction b generalizing i with
  | nil => simp [findHeader_nil] at h
  | cons x xs ih =>
    rw [findHeader_cons] at h
    by_cases hc : (x :: xs).take 4 = HEADER
    · rw [if_pos hc] at h
      cases h
      have h4 : 4 ≤ (x :: xs).length := take4_header_length hc
      rw [show (x :: xs) ++ e = x :: (xs ++ e) from rfl, findHeader_cons,
        show x :: (xs ++ e) = (x :: xs) ++ e from rfl, take_append_of_le _ _ _ h4,
        if_pos hc]
    · rw [if_neg hc] at h
      cases hf : findHeader xs with
      | none => rw [hf] at h; exact absurd h (by simp)
      | some j =>
        rw [hf] at h
        have hij : i = j + 1 := by
          cases h
          rfl
        subst hij
        have h4 : 4 ≤ (x :: xs).length := by
          have := findHeader_some_le hf
          simp only [List.length_cons]
          omega
        rw [show (x :: xs) ++ e = x :: (xs ++ e) from rfl, findHeader_cons,
          show x :: (xs ++ e) = (x :: xs) ++ e from rfl, take_append_of_le _ _ _ h4,
          if_neg hc, ih hf]
        rfl

lemma findHeader_cons_none {x : Nat} {xs : List Nat} (h : findHeader (x :: xs) = none) :
    (x :: xs).take 4 ≠ HEADER ∧ findHeader xs = none := by
  rw [findHeader_cons] at h
  by_cases hc : (x :: xs).take 4 = HEADER
  · rw [if_pos hc] at h; exact absurd h (by simp)
  · rw [if_neg hc] at h
    refine ⟨hc, ?_⟩
    cases hf : findHeader xs with
    | none => rfl
    | some j => rw [hf] at h; exact absurd h (by simp)

lemma findHeader_none_of_append {p s : List Nat} (h : findHeader (p ++ s) = none) :
    findHeader s = none := by
  induction p with
  | nil => simpa using h
  | cons x xs ih =>
    exact ih (findHeader_cons_none (by simpa using h)).2

/-- Shifting lemma: if a buffer `p ++ s` contains no marker and the
retained suffix `s` has at least 3 bytes, then dropping the prefix `p`
before appending new bytes `e` shifts every marker position by
`p.length` and changes nothing else. -/
lemma findHeader_append_shift {p s : List Nat} (e : List Nat)
    (h : findHeader (p ++ s) = none) (hs : 3 ≤ s.length) :
    findHeader (p ++ (s ++ e)) = (findHeader (s ++ e)).map (· + p.length) := by
  induction p with
  | nil =>
    simp only [List.nil_append, List.length_nil]
    cases findHeader (s ++ e) <;> simp
  | cons x xs ih =>
    obtain ⟨hc, hrest⟩ := findHeader_cons_none (by simpa using h)
    have h4 : 4 ≤ (x :: (xs ++ s)).length := by
      have hlen : (x :: (xs ++ s)).length = xs.length + s.length + 1 := by
        simp [List.length_append]
      omega
    rw [show (x :: xs) ++ (s ++ e) = x :: (xs ++ (s ++ e)) from rfl, findHeader_cons,
      show x :: (xs ++ (s ++ e)) = (x :: (xs ++ s)) ++ e by simp,
      take_append_of_le _ _ _ h4]
    rw [if_neg hc, ih hrest]
    cases findHeader (s ++ e) with
    | none => simp
    | some j => simp [Nat.add_assoc]

/-! ### Unfolding and fuel-independence of the parsing loop -/

lemma pktLen_ge (t : Nat) : 300 ≤ pktLen t := by
  unfold pktLen
  split <;> omega

lemma processFuel_succ (cap fuel : Nat) (buf : List Nat) :
    processFuel cap (fuel + 1) buf =
      match findHeader buf with
      | none => (if cap < buf.length then tail100 buf else buf, [])
      | some i =>
        if buf.length < i + 6 then (buf, [])
        else if i + pktLen (buf.getD (i + 4) 0) ≤ buf.length then
          ((processFuel cap fuel (buf.drop (i + pktLen (buf.getD (i + 4) 0)))).1,
            (buf.getD (i + 4) 0, (buf.drop i).take (pktLen (buf.getD (i + 4) 0))) ::
              (processFuel cap fuel (buf.drop (i + pktLen (buf.getD (i + 4) 0)))).2)
        else (buf, []) := rfl

lemma processFuel_succ_none (cap fuel : Nat) (buf : List Nat) (h : findHeader buf = none) :
    processFuel cap (fuel + 1) buf = (if cap < buf.length then tail100 buf else buf, []) := by
  rw [processFuel_succ, h]

lemma processFuel_succ_short (cap fuel : Nat) (buf : List Nat) (i : Nat)
    (h : findHeader buf = some i) (h6 : buf.length < i + 6) :
    processFuel cap (fuel + 1) buf = (buf, []) := by
  rw [processFuel_succ, h]
  exact if_pos h6

lemma processFuel_succ_wait (cap fuel : Nat) (buf : List Nat) (i : Nat)
    (h : findHeader buf = some i) (h6 : ¬ buf.length < i + 6)
    (hL : ¬ i + pktLen (buf.getD (i + 4) 0) ≤ buf.length) :
    processFuel cap (fuel + 1) buf = (buf, []) := by
  rw [processFuel_succ, h]
  exact (if_neg h6).trans (if_neg hL)

lemma processFuel_succ_emit (cap fuel : Nat) (buf : List Nat) (i : Nat)
    (h : findHeader buf = some i) (h6 : ¬ buf.length < i + 6)
    (hL : i + pktLen (buf.getD (i + 4) 0) ≤ buf.length) :
    processFuel cap (fuel + 1) buf =
      ((processFuel cap fuel (buf.drop (i + pktLen (buf.getD (i + 4) 0)))).1,
        (buf.getD (i + 4) 0, (buf.drop i).take (pktLen (buf.getD (i + 4) 0))) ::
          (processFuel cap fuel (buf.drop (i + pktLen (buf.getD (i + 4) 0)))).2) := by
  rw [processFuel_succ, h]
  exact (if_neg h6).trans (if_pos hL)

lemma processFuel_congr (cap : Nat) :
    ∀ n m (buf : List Nat), buf.length ≤ n → buf.length ≤ m →
      processFuel cap n buf = processFuel cap m buf := by
  intro n
  induction n with
  | zero =>
    intro m buf h1 _
    have hb : buf = [] := List.eq_nil_of_length_eq_zero (Nat.le_zero.mp h1)
    subst hb
    cases m with
    | zero => rfl
    | succ m =>
      rw [processFuel_succ_none cap m [] findHeader_nil]
      simp [tail100]
      rfl
  | succ n ih =>
    intro m buf h1 h2
    cases m with
    | zero =>
      have hb : buf = [] := List.eq_nil_of_length_eq_zero (Nat.le_zero.mp h2)
      subst hb
      rw [processFuel_succ_none cap n [] findHeader_nil]
      simp [tail100]
      rfl
    | succ m =>
      cases hf : findHeader buf with
      | none => rw [processFuel_succ_none _ _ _ hf, processFuel_succ_none _ _ _ hf]
      | some i =>
        by_cases h6 : buf.length < i + 6
        · rw [processFuel_succ_short _ _ _ _ hf h6, processFuel_succ_short _ _ _ _ hf h6]
        · by_cases hL : i + pktLen (buf.getD (i + 4) 0) ≤ buf.length
          · rw [processFuel_succ_emit _ _ _ _ hf h6 hL,
              processFuel_succ_emit _ _ _ _ hf h6 hL]
            have hge := pktLen_ge (buf.getD (i + 4) 0)
            have hd1 : (buf.drop (i + pktLen (buf.getD (i + 4) 0))).length ≤ n := by
              simp only [List.length_drop]
              omega
            have hd2 : (buf.drop (i + pktLen (buf.getD (i + 4) 0))).length ≤ m := by
              simp only [List.length_drop]
              omega
            rw [ih m _ hd1 hd2]
          · rw [processFuel_succ_wait _ _ _ _ hf h6 hL,
              processFuel_succ_wait _ _ _ _ hf h6 hL]

lemma processBuffer_eq_fuel (cap n : Nat) (buf : List Nat) (h : buf.length ≤ n) :
    processBuffer cap buf = processFuel cap n buf :=
  processFuel_congr cap buf.length n buf le_rfl h

lemma processBuffer_nil (cap : Nat) : processBuffer cap [] = ([], []) := rfl

lemma processBuffer_none (cap : Nat) (buf : List Nat) (h : findHeader buf = none) :
    processBuffer cap buf = (if cap < buf.length then tail100 buf else buf, []) := by
  cases buf with
  | nil => simp [processBuffer_nil, tail100]
  | cons x xs => exact processFuel_succ_none cap xs.length (x :: xs) h

lemma processBuffer_short (cap : Nat) (buf : List Nat) (i : Nat)
    (h : findHeader buf = some i) (h6 : buf.length < i + 6) :
    processBuffer cap buf = (buf, []) := by
  cases buf with
  | nil => simp [findHeader_nil] at h
  | cons x xs => exact processFuel_succ_short cap xs.length (x :: xs) i h h6

lemma processBuffer_wait (cap : Nat) (buf : List Nat) (i : Nat)
    (h : findHeader buf = some i) (h6 : ¬ buf.length < i + 6)
    (hL : ¬ i + pktLen (buf.getD (i + 4) 0) ≤ buf.length) :
    processBuffer cap buf = (buf, []) := by
  cases buf with
  | nil => simp [findHeader_nil] at h
  | cons x xs => exact processFuel_succ_wait cap xs.length (x :: xs) i h h6 hL

lemma processBuffer_emit (cap : Nat) (buf : List Nat) (i : Nat)
    (h : findHeader buf = some i) (h6 : ¬ buf.length < i + 6)
    (hL : i + pktLen (buf.getD (i + 4) 0) ≤ buf.length) :
    processBuffer cap buf =
      ((processBuffer cap (buf.drop (i + pktLen (buf.getD (i + 4) 0)))).1,
        (buf.getD (i + 4) 0, (buf.drop i).take (pktLen (buf.getD (i + 4) 0))) ::
          (processBuffer cap (buf.drop (i + pktLen (buf.getD (i + 4) 0)))).2) := by
  cases buf with
  | nil => simp [findHeader_nil] at h
  | cons x xs =>
    have hge := pktLen_ge ((x :: xs).getD (i + 4) 0)
    have hd : ((x :: xs).drop (i + pktLen ((x :: xs).getD (i + 4) 0))).length ≤ xs.length := by
      simp only [List.length_drop, List.length_cons]
      omega
    rw [show processBuffer cap (x :: xs) = processFuel cap (xs.length + 1) (x :: xs) from rfl,
      processFuel_succ_emit _ _ _ _ h h6 hL,
      ← processBuffer_eq_fuel cap xs.length _ hd]

/-! ### The truncation suffix -/

lemma tail100_length_le (b : List Nat) : (tail100 b).length ≤ 100 := by
  simp only [tail100, List.length_drop]
  omega

lemma tail100_of_le {b : List Nat} (h : b.length ≤ 100) : tail100 b = b := by
  unfold tail100
  have h0 : b.length - 100 = 0 := by omega
  rw [h0, List.drop_zero]

lemma tail100_decomp (b : List Nat) : b.take (b.length - 100) ++ tail100 b = b :=
  List.take_append_drop _ b

lemma findHeader_tail100_none {b : List Nat} (h : findHeader b = none) :
    findHeader (tail100 b) = none := by
  refine findHeader_none_of_append (p := b.take (b.length - 100)) ?_
  rw [tail100_decomp]
  exact h

/-- Dropping a marker-free prefix, as the truncation does, never changes
the frames that one pass of the parsing loop emits from the rest of the
stream (the retained 3-byte-or-longer suffix keeps every partial marker
that could complete later). -/
lemma processBuffer_snd_drop (cap : Nat) (p s e : List Nat)
    (hnone : findHeader (p ++ s) = none) (hs : 3 ≤ s.length) :
    (processBuffer cap (p ++ (s ++ e))).2 = (processBuffer cap (s ++ e)).2 := by
  have hshift := findHeader_append_shift e hnone hs
  cases hfe : findHeader (s ++ e) with
  | none =>
    rw [hfe] at hshift
    simp only [Option.map_none'] at hshift
    rw [processBuffer_none _ _ hshift, processBuffer_none _ _ hfe]
  | some j =>
    rw [hfe] at hshift
    simp only [Option.map_some'] at hshift
    have hlen : (p ++ (s ++ e)).length = p.length + (s ++ e).length := by
      simp
    have hb4 : j + p.length + 4 = p.length + (j + 4) := by omega
    have hbyte : (p ++ (s ++ e)).getD (j + p.length + 4) 0 = (s ++ e).getD (j + 4) 0 := by
      rw [hb4, getD_append_add]
    by_cases h6 : (s ++ e).length < j + 6
    · have h6p : (p ++ (s ++ e)).length < j + p.length + 6 := by
        rw [hlen]; omega
      rw [processBuffer_short _ _ _ hshift h6p, processBuffer_short _ _ _ hfe h6]
    · have h6p : ¬ (p ++ (s ++ e)).length < j + p.length + 6 := by
        rw [hlen]; omega
      by_cases hL : j + pktLen ((s ++ e).getD (j + 4) 0) ≤ (s ++ e).length
      · have hLp : j + p.length + pktLen ((p ++ (s ++ e)).getD (j + p.length + 4) 0) ≤
            (p ++ (s ++ e)).length := by
          rw [hbyte, hlen]; omega
        rw [processBuffer_emit _ _ _ hshift h6p hLp, processBuffer_emit _ _ _ hfe h6 hL]
        dsimp only
        rw [hbyte]
        have hdA : j + p.length + pktLen ((s ++ e).getD (j + 4) 0) =
            p.length + (j + pktLen ((s ++ e).getD (j + 4) 0)) := by omega
        rw [hdA, drop_append_add]
        have hdB : j + p.length = p.length + j := by omega
        rw [hdB, drop_append_add]
      · have hLp : ¬ j + p.length + pktLen ((p ++ (s ++ e)).getD (j + p.length + 4) 0) ≤
            (p ++ (s ++ e)).length := by
          rw [hbyte, hlen]; omega
        rw [processBuffer_wait _ _ _ hshift h6p hLp, processBuffer_wait _ _ _ hfe h6 hL]

/-- Leftovers are quiescent: running the parsing loop again on a
leftover buffer emits nothing and leaves the buffer unchanged. -/
lemma processBuffer_fst_fix (cap : Nat) :
    ∀ n (buf : List Nat), buf.length ≤ n →
      processBuffer cap (processBuffer cap buf).1 = ((processBuffer cap buf).1, []) := by
  intro n
  induction n with
  | zero =>
    intro buf h
    have hb : buf = [] := List.eq_nil_of_length_eq_zero (Nat.le_zero.mp h)
    subst hb
    rw [processBuffer_nil]
    dsimp only
    exact processBuffer_nil cap
  | succ n ih =>
    intro buf h
    cases hf : findHeader buf with
    | none =>
      by_cases hc : cap < buf.length
      · have heq : processBuffer cap buf = (tail100 buf, []) := by
          rw [processBuffer_none _ _ hf, if_pos hc]
        rw [heq]
        show processBuffer cap (tail100 buf) = (tail100 buf, [])
        have hsuf := findHeader_tail100_none hf
        rw [processBuffer_none _ _ hsuf]
        by_cases hc2 : cap < (tail100 buf).length
        · rw [if_pos hc2, tail100_of_le (tail100_length_le buf)]
        · rw [if_neg hc2]
      · have heq : processBuffer cap buf = (buf, []) := by
          rw [processBuffer_none _ _ hf, if_neg hc]
        rw [heq]
        exact heq
    | some i =>
      by_cases h6 : buf.length < i + 6
      · have heq : processBuffer cap buf = (buf, []) := processBuffer_short _ _ _ hf h6
        rw [heq]
        exact heq
      · by_cases hL : i + pktLen (buf.getD (i + 4) 0) ≤ buf.length
        · have heq := processBuffer_emit cap buf i hf h6 hL
          rw [heq]
          show processBuffer cap
              (processBuffer cap (buf.drop (i + pktLen (buf.getD (i + 4) 0)))).1 =
            ((processBuffer cap (buf.drop (i + pktLen (buf.getD (i + 4) 0)))).1, [])
          have hge := pktLen_ge (buf.getD (i + 4) 0)
          exact ih (buf.drop (i + pktLen (buf.getD (i + 4) 0)))
            (by simp only [List.length_drop]; omega)
        · have heq : processBuffer cap buf = (buf, []) := processBuffer_wait _ _ _ hf h6 hL
          rw [heq]
          exact heq

/-- Compositionality of the parsing loop: processing `b ++ e` in one go
emits exactly the frames of `b` followed by the frames obtained by
appending `e` to the leftover of `b`. -/
lemma processBuffer_snd_append (cap : Nat) :
    ∀ n (b : List Nat), b.length ≤ n → ∀ e,
      (processBuffer cap (b ++ e)).2 =
        (processBuffer cap b).2 ++ (processBuffer cap ((processBuffer cap b).1 ++ e)).2 := by
  intro n
  induction n with
  | zero =>
    intro b h e
    have hb : b = [] := List.eq_nil_of_length_eq_zero (Nat.le_zero.mp h)
    subst hb
    rw [processBuffer_nil]
    dsimp only
    rw [List.nil_append, List.nil_append]
  | succ n ih =>
    intro b h e
    cases hf : findHeader b with
    | none =>
      by_cases hc : cap < b.length
      · have heq : processBuffer cap b = (tail100 b, []) := by
          rw [processBuffer_none _ _ hf, if_pos hc]
        rw [heq]
        dsimp only
        rw [List.nil_append]
        by_cases hsmall : b.length ≤ 100
        · rw [tail100_of_le hsmall]
        · have hs : 3 ≤ (tail100 b).length := by
            simp only [tail100, List.length_drop]
            omega
          have hnone : findHeader (b.take (b.length - 100) ++ tail100 b) = none := by
            rw [tail100_decomp]
            exact hf
          have := processBuffer_snd_drop cap (b.take (b.length - 100)) (tail100 b) e hnone hs
          calc (processBuffer cap (b ++ e)).2
              = (processBuffer cap (b.take (b.length - 100) ++ (tail100 b ++ e))).2 := by
                rw [← List.append_assoc, tail100_decomp]
            _ = (processBuffer cap (tail100 b ++ e)).2 := this
      · have heq : processBuffer cap b = (b, []) := by
          rw [processBuffer_none _ _ hf, if_neg hc]
        rw [heq]
        dsimp only
        rw [List.nil_append]
    | some i =>
      by_cases h6 : b.length < i + 6
      · have heq : processBuffer cap b = (b, []) := processBuffer_short _ _ _ hf h6
        rw [heq]
        dsimp only
        rw [List.nil_append]
      · by_cases hL : i + pktLen (b.getD (i + 4) 0) ≤ b.length
        · have h46 : i + 4 < b.length := by omega
          have hge := pktLen_ge (b.getD (i + 4) 0)
          have hfs : findHeader (b ++ e) = some i := findHeader_append_some e hf
          have hbyte : (b ++ e).getD (i + 4) 0 = b.getD (i + 4) 0 :=
            getD_append_lt b e (i + 4) h46
          have h6e : ¬ (b ++ e).length < i + 6 := by
            simp only [List.length_append]
            omega
          have hLe : i + pktLen ((b ++ e).getD (i + 4) 0) ≤ (b ++ e).length := by
            rw [hbyte]
            simp only [List.length_append]
            omega
          rw [processBuffer_emit cap (b ++ e) i hfs h6e hLe,
            processBuffer_emit cap b i hf h6 hL]
          dsimp only
          rw [hbyte]
          have hdropE : (b ++ e).drop (i + pktLen (b.getD (i + 4) 0)) =
              b.drop (i + pktLen (b.getD (i + 4) 0)) ++ e :=
            drop_append_of_le b e _ hL
          have hdropI : (b ++ e).drop i = b.drop i ++ e :=
            drop_append_of_le b e i (by omega)
          have htake : (b.drop i ++ e).take (pktLen (b.getD (i + 4) 0)) =
              (b.drop i).take (pktLen (b.getD (i + 4) 0)) := by
            refine take_append_of_le _ _ _ ?_
            simp only [List.length_drop]
            omega
          rw [hdropE, hdropI, htake, List.cons_append]
          have hrec := ih (b.drop (i + pktLen (b.getD (i + 4) 0)))
            (by simp only [List.length_drop]; omega) e
          rw [hrec]
        · have heq : processBuffer cap b = (b, []) := processBuffer_wait _ _ _ hf h6 hL
          rw [heq]
          dsimp only
          rw [List.nil_append]

/-- Feeding chunks one at a time, starting from a quiescent buffer,
emits exactly the frames of feeding their concatenation at once. -/
lemma runChunks_eq_processBuffer (cap : Nat) :
    ∀ (cs : List (List Nat)) (b : List Nat), processBuffer cap b = (b, []) →
      runChunks cap b cs = (processBuffer cap (b ++ cs.flatten)).2 := by
  intro cs
  induction cs with
  | nil =>
    intro b hq
    rw [runChunks]
    simp only [List.flatten_nil, List.append_nil, hq]
  | cons c cs ih =>
    intro b hq
    rw [runChunks]
    simp only [feedChunk, List.flatten_cons]
    rw [← List.append_assoc]
    have hA := processBuffer_snd_append cap (b ++ c).length (b ++ c) le_rfl cs.flatten
    rw [hA]
    have hfix := processBuffer_fst_fix cap (b ++ c).length (b ++ c) le_rfl
    rw [ih (processBuffer cap (b ++ c)).1 hfix]

/-! ### Shape of every emitted frame -/

lemma processBuffer_mem (cap : Nat) :
    ∀ n (buf : List Nat), buf.length ≤ n → ∀ t fr, (t, fr) ∈ (processBuffer cap buf).2 →
      fr.length = pktLen t ∧ fr.take 4 = HEADER ∧ fr.getD 4 0 = t := by
  intro n
  induction n with
  | zero =>
    intro buf h t fr hm
    have hb : buf = [] := List.eq_nil_of_length_eq_zero (Nat.le_zero.mp h)
    subst hb
    rw [processBuffer_nil] at hm
    simp at hm
  | succ n ih =>
    intro buf h t fr hm
    cases hf : findHeader buf with
    | none =>
      rw [processBuffer_none _ _ hf] at hm
      simp at hm
    | some i =>
      by_cases h6 : buf.length < i + 6
      · rw [processBuffer_short _ _ _ hf h6] at hm
        simp at hm
      · by_cases hL : i + pktLen (buf.getD (i + 4) 0) ≤ buf.length
        · rw [processBuffer_emit _ _ _ hf h6 hL] at hm
          dsimp only at hm
          have hge := pktLen_ge (buf.getD (i + 4) 0)
          rcases List.mem_cons.mp hm with hhead | htail
          · injection hhead with ht hfr
            subst ht
            subst hfr
            refine ⟨?_, ?_, ?_⟩
            · rw [List.length_take, List.length_drop]
              omega
            · rw [List.take_take,
                show min 4 (pktLen (buf.getD (i + 4) 0)) = 4 by omega]
              exact findHeader_some_take hf
            · rw [getD_take_lt _ _ _ (by omega), getD_drop_add]
          · exact ih (buf.drop (i + pktLen (buf.getD (i + 4) 0)))
              (by simp only [List.length_drop]; omega) t fr htail
        · rw [processBuffer_wait _ _ _ hf h6 hL] at hm
          simp at hm

/-! ### Agreement of the exception-tracking pass with the total pass -/

lemma getD_of_getElem? {l : List Nat} {n a : Nat} (h : l[n]? = some a) : l.getD n 0 = a := by
  induction l generalizing n with
  | nil => simp at h
  | cons x xs ih =>
    cases n with
    | zero =>
      simp only [List.getElem?_cons_zero] at h
      cases h
      rfl
    | succ m =>
      simp only [List.getElem?_cons_succ] at h
      simpa using ih h

lemma processFuelE_succ (cap fuel : Nat) (buf : List Nat) :
    processFuelE cap (fuel + 1) buf =
      match findHeader buf with
      | none => some (if cap < buf.length then tail100 buf else buf, [])
      | some i =>
        if buf.length < i + 6 then some (buf, [])
        else
          match buf[i + 4]? with
          | none => none
          | some t =>
            if i + pktLen t ≤ buf.length then
              match processFuelE cap fuel (buf.drop (i + pktLen t)) with
              | none => none
              | some r => some (r.1, (t, (buf.drop i).take (pktLen t)) :: r.2)
            else some (buf, []) := rfl

lemma processFuelE_eq (cap : Nat) :
    ∀ n (buf : List Nat), processFuelE cap n buf = some (processFuel cap n buf) := by
  intro n
  induction n with
  | zero => intro buf; rfl
  | succ n ih =>
    intro buf
    cases hf : findHeader buf with
    | none => simp only [processFuelE_succ, processFuel_succ, hf]
    | some i =>
      simp only [processFuelE_succ, processFuel_succ, hf]
      by_cases h6 : buf.length < i + 6
      · simp only [if_pos h6]
      · simp only [if_neg h6]
        cases hx : buf[i + 4]? with
        | none =>
          have := List.getElem?_eq_none_iff.mp hx
          omega
        | some a =>
          have ha : buf.getD (i + 4) 0 = a := getD_of_getElem? hx
          rw [ha]
          by_cases hL : i + pktLen a ≤ buf.length
          · simp only [if_pos hL, ih]
          · simp only [if_neg hL]

lemma processBufferE_eq (cap : Nat) (buf : List Nat) :
    processBufferE cap buf = some (processBuffer cap buf) :=
  processFuelE_eq cap buf.length buf

/-! ### Claim theorems for the frame extractor -/

/-- C1: chunking-invariance of the frame extractor — for every byte
stream and every partition into chunks, feeding all chunks one at a
time starting from an empty buffer emits exactly the same ordered
`(frame_kind, bytes)` sequence as feeding the concatenated stream in a
single call, including when the no-marker truncation fires in one run
but not the other. -/
theorem extractor_chunking_invariance (cap : Nat) (chunks : List (List Nat)) :
    runChunks cap [] chunks = (processBuffer cap chunks.flatten).2 := by
  have h := runChunks_eq_processBuffer cap chunks [] (processBuffer_nil cap)
  rw [h, List.nil_append]

/-- C6: every emitted frame has exactly the total length determined by
the subtype byte following the marker — 308 bytes for telemetry
(subtype 0x02) and 300 bytes for every other subtype, identity 0x01
included — never fewer; and when the buffer does not yet hold all bytes
of a found frame, nothing is emitted and the partial frame is retained
in the unchanged buffer. -/
theorem emitted_frame_length (cap : Nat) (buf : List Nat) :
    (∀ t fr, (t, fr) ∈ (processBuffer cap buf).2 →
      fr.length = pktLen t ∧ (t = 2 → fr.length = 308) ∧ (t ≠ 2 → fr.length = 300))
  ∧ (∀ i, findHeader buf = some i →
      buf.length < i + pktLen (buf.getD (i + 4) 0) →
      processBuffer cap buf = (buf, [])) := by
  constructor
  · intro t fr hm
    have h := (processBuffer_mem cap buf.length buf le_rfl t fr hm).1
    refine ⟨h, ?_, ?_⟩ <;> intro ht <;> rw [h] <;> simp [pktLen, ht]
  · intro i hf hlt
    by_cases h6 : buf.length < i + 6
    · exact processBuffer_short _ _ _ hf h6
    · exact processBuffer_wait _ _ _ hf h6 (by omega)

/-- A complete 308-byte telemetry frame used as a concrete witness
input. -/
def telFrame : List Nat := HEADER ++ [2, 0] ++ List.replicate 302 5

/-- Witness for C6 at a concrete telemetry frame and a concrete
truncated frame. -/
theorem emitted_frame_length_witness :
    (telFrame.length = pktLen 2 ∧ (2 = 2 → telFrame.length = 308) ∧
      ((2 : Nat) ≠ 2 → telFrame.length = 300))
  ∧ processBuffer 4096 (HEADER ++ [1]) = (HEADER ++ [1], []) :=
  ⟨(emitted_frame_length 4096 telFrame).1 2 telFrame (by decide),
   (emitted_frame_length 4096 (HEADER ++ [1])).2 0 (by decide) (by decide)⟩

/-- C9: every `(packet_type, packet)` pair the extractor yields begins
with the 4-byte magic marker 55 AA EB 90 and reports as its kind its
own subtype byte `packet[4]`. -/
theorem emitted_frame_marker (cap : Nat) (buf : List Nat) (t : Nat) (fr : List Nat)
    (hm : (t, fr) ∈ (processBuffer cap buf).2) :
    fr.take 4 = HEADER ∧ fr.getD 4 0 = t := by
  have h := processBuffer_mem cap buf.length buf le_rfl t fr hm
  exact ⟨h.2.1, h.2.2⟩

/-- Witness for C9 at a concrete buffer holding one telemetry frame. -/
theorem emitted_frame_marker_witness :
    telFrame.take 4 = HEADER ∧ telFrame.getD 4 0 = 2 :=
  emitted_frame_marker 4096 telFrame 2 telFrame (by decide)

/-- C7: totality of the extractor — one pass of the buffer-parsing step
never raises on any input (the exception-tracking model always returns
`some` and agrees with the total model), and insufficient bytes only
delay emission: a found marker whose frame is incomplete leaves the
buffered prefix, marker included, untouched. -/
theorem extractor_never_raises (cap : Nat) (buf : List Nat) :
    processBufferE cap buf = some (processBuffer cap buf)
  ∧ (∀ i, findHeader buf = some i →
      buf.length < i + pktLen (buf.getD (i + 4) 0) →
      processBuffer cap buf = (buf, []) ∧ findHeader (processBuffer cap buf).1 = some i) := by
  refine ⟨processBufferE_eq cap buf, ?_⟩
  intro i hf hlt
  have hkeep : processBuffer cap buf = (buf, []) := by
    by_cases h6 : buf.length < i + 6
    · exact processBuffer_short _ _ _ hf h6
    · exact processBuffer_wait _ _ _ hf h6 (by omega)
  rw [hkeep]
  exact ⟨rfl, hf⟩

/-- Witness for C7 on garbage input and on a truncated frame. -/
theorem extractor_never_raises_witness :
    processBufferE 4096 [1, 2, 3] = some (processBuffer 4096 [1, 2, 3])
  ∧ processBuffer 4096 (HEADER ++ [7]) = (HEADER ++ [7], [])
  ∧ findHeader (processBuffer 4096 (HEADER ++ [7])).1 = some 0 :=
  ⟨(extractor_never_raises 4096 [1, 2, 3]).1,
   ((extractor_never_raises 4096 (HEADER ++ [7])).2 0 (by decide) (by decide)).1,
   ((extractor_never_raises 4096 (HEADER ++ [7])).2 0 (by decide) (by decide)).2⟩

/-! ### Claim theorem for device-address extraction -/

/-- C10: `extract_device_address` never raises; on inputs of at least
274 bytes it returns the little-endian unsigned 32-bit integer read at
bytes 270..273, and on every shorter input it returns 0. -/
theorem extract_device_address_spec (p : List Nat) :
    (274 ≤ p.length →
      extract_device_address p =
        p.getD 270 0 + 256 * p.getD 271 0 + 65536 * p.getD 272 0 +
          16777216 * p.getD 273 0)
  ∧ (p.length < 274 → extract_device_address p = 0) := by
  constructor
  · intro h
    have h4 : 270 + 4 ≤ p.length := by omega
    simp only [extract_device_address, unpackU32from, if_pos h, if_pos h4]
  · intro h
    simp only [extract_device_address, if_neg (by omega : ¬ 274 ≤ p.length)]

/-- Witness for C10 on a 274-byte packet carrying id 7 and on a short
packet. -/
theorem extract_device_address_witness :
    extract_device_address (List.replicate 270 0 ++ [7, 0, 0, 0]) =
      (List.replicate 270 0 ++ [7, 0, 0, 0]).getD 270 0 +
        256 * (List.replicate 270 0 ++ [7, 0, 0, 0]).getD 271 0 +
        65536 * (List.replicate 270 0 ++ [7, 0, 0, 0]).getD 272 0 +
        16777216 * (List.replicate 270 0 ++ [7, 0, 0, 0]).getD 273 0
  ∧ extract_device_address [1, 2, 3] = 0 :=
  ⟨(extract_device_address_spec (List.replicate 270 0 ++ [7, 0, 0, 0])).1 (by decide),
   (extract_device_address_spec [1, 2, 3]).2 (by decide)⟩

/-! ### Claim theorems for the correlation loop of app/main.py -/

/-- C2 counterexample: the claim demands emission whenever
`arrival_time - PendingTelemetry.arrival_time ≤ EXPIRY`, but the code
tests `time_diff < PACKET_EXPIRE_TIME` strictly — with EXPIRY 1,
pending telemetry stashed at time 0 and an identity frame at time 1 the
difference equals EXPIRY (so the claim requires emission), yet no 0x02
record is published and the stale-drop counter fires instead. -/
theorem pending_telemetry_expiry_counterexample :
    ((1 : ℚ) - 0 ≤ 1)
  ∧ (engineStep 1 ⟨some [9], 0⟩ 1 1 []).2.published = [(0, 1, [])]
  ∧ (engineStep 1 ⟨some [9], 0⟩ 1 1 []).2.staleDrops = 1
  ∧ (engineStep 1 ⟨some [9], 0⟩ 1 1 []).1.pending = none := by
  refine ⟨by norm_num, ?_, ?_, ?_⟩ <;> simp [engineStep, extract_device_address]

/-- C2 (amended): when an identity frame is processed while the single
pending-telemetry slot holds a nonempty packet, the pending telemetry is
emitted exactly once, attributed to the extracted device id, iff the
age is strictly below EXPIRY; at age ≥ EXPIRY it is not emitted and is
counted stale-dropped; in both cases the slot is empty afterwards. -/
theorem pending_telemetry_expiry (expiry : ℚ) (s : EngState) (now : ℚ)
    (idp p : List Nat) (hp : s.pending = some p) (hne : p ≠ []) :
    (now - s.lastRealtimeTime < expiry →
      (engineStep expiry s now 1 idp).2.published =
        [(extract_device_address idp, 1, idp), (extract_device_address idp, 2, p)] ∧
      (engineStep expiry s now 1 idp).2.staleDrops = 0 ∧
      (engineStep expiry s now 1 idp).1.pending = none)
  ∧ (expiry ≤ now - s.lastRealtimeTime →
      (engineStep expiry s now 1 idp).2.published =
        [(extract_device_address idp, 1, idp)] ∧
      (engineStep expiry s now 1 idp).2.staleDrops = 1 ∧
      (engineStep expiry s now 1 idp).1.pending = none) := by
  constructor
  · intro hlt
    simp [engineStep, hp, hne, hlt]
  · intro hge
    simp [engineStep, hp, hne, not_lt.mpr hge]

/-- Witness for C2 (amended) at concrete states on both sides of the
expiry boundary. -/
theorem pending_telemetry_expiry_witness :
    (engineStep 1 ⟨some [9], 0⟩ 0 1 []).2.published = [(0, 1, []), (0, 2, [9])]
  ∧ (engineStep 1 ⟨some [9], 0⟩ 1 1 []).2.staleDrops = 1 :=
  ⟨((pending_telemetry_expiry 1 ⟨some [9], 0⟩ 0 [] [9] rfl (by simp)).1
      (by simp)).1,
   (((pending_telemetry_expiry 1 ⟨some [9], 0⟩ 1 [] [9] rfl (by simp)).2
      (by simp)).2).1⟩

/-- The 274-byte identity packet whose bytes 270..273 encode device id 7
little-endian. -/
def idp7 : List Nat := List.replicate 270 0 ++ [7, 0, 0, 0]

/-- C3 counterexample: a telemetry frame at time 0 followed within the
expiry window (here one time unit later with EXPIRY 2) by an identity
frame self-reporting id 7, with no supervisor command ever observed,
attributes both the identity frame and the released telemetry to id 7 —
the code has no command-recency fallback to id 0, contradicting the
claimed attribution to 0. -/
theorem fallback_attribution_counterexample :
    (engineStep 2 ((engineStep 2 ⟨none, 0⟩ 0 2 [5, 5]).1) 1 1 idp7).2.published =
      [(7, 1, idp7), (7, 2, [5, 5])]
  ∧ (7 : Nat) ≠ 0 := by
  have hid : extract_device_address idp7 = 7 := by decide
  constructor
  · have hs1 : (engineStep 2 (⟨none, 0⟩ : EngState) 0 2 [5, 5]).1 = ⟨some [5, 5], 0⟩ := by
      simp [engineStep]
    rw [hs1]
    norm_num [engineStep, hid]
    simp
  · decide

/-- C3 (amended): every record published while an identity frame is
processed — the identity frame itself and any telemetry it releases —
is attributed to the id extracted from the identity frame itself
(`extract_device_address`, which is 0 only when the packet is too short
to carry an id); command recency plays no role. -/
theorem identity_attribution (expiry : ℚ) (s : EngState) (now : ℚ) (idp : List Nat)
    (r : Nat × Nat × List Nat) (hr : r ∈ (engineStep expiry s now 1 idp).2.published) :
    r.1 = extract_device_address idp := by
  cases hp : s.pending with
  | none =>
    simp [engineStep, hp] at hr
    rw [hr]
  | some p =>
    by_cases hpe : p = []
    · simp [engineStep, hp, hpe] at hr
      rw [hr]
    · by_cases hlt : now - s.lastRealtimeTime < expiry
      · simp [engineStep, hp, hpe, hlt] at hr
        rcases hr with h | h <;> rw [h]
      · simp [engineStep, hp, hpe, hlt] at hr
        rw [hr]

/-- Witness for C3 (amended) at a concrete published record. -/
theorem identity_attribution_witness :
    ((0 : Nat), (1 : Nat), ([] : List Nat)).1 = extract_device_address [] :=
  identity_attribution 1 ⟨none, 0⟩ 0 [] (0, 1, []) (by decide)

/-- C4: processing a telemetry frame while the single pending slot is
occupied accounts exactly one overwrite drop (never silently), publishes
nothing, installs the new frame as the sole pending telemetry, and any
telemetry bytes later released by an identity frame are exactly the
newest frame's bytes. -/
theorem telemetry_single_slot (expiry : ℚ) (s : EngState) (now : ℚ) (p q : List Nat)
    (hq : s.pending = some q) :
    (engineStep expiry s now 2 p).2.overwriteDrops = 1
  ∧ (engineStep expiry s now 2 p).2.staleDrops = 0
  ∧ (engineStep expiry s now 2 p).2.published = []
  ∧ (engineStep expiry s now 2 p).1.pending = some p
  ∧ (∀ (late : ℚ) (idp : List Nat) (r : Nat × Nat × List Nat),
      r ∈ (engineStep expiry (engineStep expiry s now 2 p).1 late 1 idp).2.published →
      r.2.1 = 2 → r.2.2 = p) := by
  refine ⟨by simp [engineStep, hq], by simp [engineStep], by simp [engineStep],
    by simp [engineStep], ?_⟩
  intro late idp r hr h2
  have hstate : (engineStep expiry s now 2 p).1 = ⟨some p, now⟩ := by
    simp [engineStep]
  rw [hstate] at hr
  by_cases hpe : p = []
  · simp [engineStep, hpe] at hr
    rw [hr] at h2
    simp at h2
  · by_cases hlt : late - now < expiry
    · simp [engineStep, hpe, hlt] at hr
      rcases hr with h | h
      · rw [h] at h2
        simp at h2
      · rw [h]
    · simp [engineStep, hpe, hlt] at hr
      rw [hr] at h2
      simp at h2

/-- Witness for C4 at a concrete overwrite followed by a release. -/
theorem telemetry_single_slot_witness :
    (engineStep 1 ⟨some [1], 0⟩ 0 2 [2]).2.overwriteDrops = 1
  ∧ ((0 : Nat), (2 : Nat), ([2] : List Nat)).2.2 = [2] :=
  ⟨(telemetry_single_slot 1 ⟨some [1], 0⟩ 0 [2] [1] rfl).1,
   (telemetry_single_slot 1 ⟨some [1], 0⟩ 0 [2] [1] rfl).2.2.2.2 0 [] (0, 2, [2])
     (by simp [engineStep, extract_device_address]) rfl⟩

/-! ### Claim theorem for the spec-modelled command corroboration -/

lemma specStep_identity_pendingCmd (expiry : ℚ) (s : SpecEngState) (now : ℚ)
    (selfId : Nat) (ibs : List Nat) :
    (specStep expiry s now (.identity selfId ibs)).1.pendingCmd =
      s.pendingCmd.filter
        (fun en => en.1 ≠ specTarget expiry s now selfId ∧ ¬ expiry < now - en.2.2) := rfl

lemma specStep_identity_cmdCount (expiry : ℚ) (s : SpecEngState) (now : ℚ)
    (selfId : Nat) (ibs : List Nat) (x : Nat) :
    ((specStep expiry s now (.identity selfId ibs)).2.1.filter
        (fun r => r.kind == 0x10 && r.deviceId == x)).length =
      if specTarget expiry s now selfId = x ∧
          (s.pendingCmd.lookup (specTarget expiry s now selfId)).isSome then 1 else 0 := by
  cases hlk : s.pendingCmd.lookup (specTarget expiry s now selfId) with
  | none =>
    rcases htel : s.pendingTel with _ | ⟨tb, tt⟩
    · simp [specStep, hlk, htel]
    · by_cases htt : now - tt ≤ expiry <;> simp [specStep, hlk, htel, htt]
  | some pr =>
    rcases htel : s.pendingTel with _ | ⟨tb, tt⟩
    · by_cases hT : specTarget expiry s now selfId = x
      · rw [hT] at hlk
        simp [specStep, hlk, htel, hT]
      · simp [specStep, hlk, htel, hT]
    · by_cases hT : specTarget expiry s now selfId = x
      · rw [hT] at hlk
        by_cases htt : now - tt ≤ expiry <;> simp [specStep, hlk, htel, htt, hT]
      · by_cases htt : now - tt ≤ expiry <;> simp [specStep, hlk, htel, htt, hT]

/-- C5: command corroboration in the spec-modelled Correlation Engine
(no command-holding code exists under src/; modelled from spec section
4.2).  After a Command frame targeting id X ≠ 0 at time t0 is stored
from a state holding no pending commands, an Identity frame at time t1
releases exactly one attributed command record for X iff its computed
attribution target is X, which holds iff the identity does not
self-report 0 and arrives within EXPIRY of the command; when the target
is different (e.g. 0), nothing is released — the command is purged
unreleased once its age exceeds EXPIRY and retained while within it. -/
theorem command_corroboration (expiry : ℚ) (x selfId : Nat) (cbs ibs : List Nat)
    (t0 t1 : ℚ) (s0 s1 : SpecEngState) (hx : x ≠ 0) (hc : s0.pendingCmd = [])
    (hs1 : s1 = (specStep expiry s0 t0 (.command x cbs)).1) :
    (((specStep expiry s1 t1 (.identity selfId ibs)).2.1.filter
        (fun r => r.kind == 0x10 && r.deviceId == x)).length =
      if specTarget expiry s1 t1 selfId = x then 1 else 0)
  ∧ (specTarget expiry s1 t1 selfId = x ↔ selfId ≠ 0 ∧ t1 - t0 ≤ expiry)
  ∧ (expiry < t1 - t0 →
      (specStep expiry s1 t1 (.identity selfId ibs)).1.pendingCmd.lookup x = none
      ∧ ((specStep expiry s1 t1 (.identity selfId ibs)).2.1.filter
          (fun r => r.kind == 0x10 && r.deviceId == x)).length = 0)
  ∧ (specTarget expiry s1 t1 selfId ≠ x → t1 - t0 ≤ expiry →
      (specStep expiry s1 t1 (.identity selfId ibs)).1.pendingCmd.lookup x =
        some (cbs, t0)) := by
  have hs1v : s1 = ⟨s0.pendingTel, [(x, (cbs, t0))], x, some t0⟩ := by
    rw [hs1]
    simp [specStep, hc]
  subst hs1v
  have htv : specTarget expiry ⟨s0.pendingTel, [(x, (cbs, t0))], x, some t0⟩ t1 selfId =
      if selfId = 0 then 0 else if expiry < t1 - t0 then 0 else x := by
    simp [specTarget]
  refine ⟨?_, ?_, ?_, ?_⟩
  · rw [specStep_identity_cmdCount]
    have hlkx : (([(x, (cbs, t0))] : List (Nat × (List Nat × ℚ))).lookup x) =
        some (cbs, t0) := by
      simp [List.lookup]
    by_cases hT : specTarget expiry ⟨s0.pendingTel, [(x, (cbs, t0))], x, some t0⟩ t1 selfId = x
    · rw [hT]
      simp [hlkx]
    · simp [hT]
  · rw [htv]
    by_cases hs0 : selfId = 0
    · simp [hs0, Ne.symm hx]
    · by_cases hexp : expiry < t1 - t0
      · simp [hs0, hexp, Ne.symm hx, not_le.mpr hexp]
      · simp [hs0, hexp, not_lt.mp hexp]
  · intro hexp
    have hT0 : specTarget expiry ⟨s0.pendingTel, [(x, (cbs, t0))], x, some t0⟩ t1 selfId = 0 := by
      rw [htv]
      by_cases hs0 : selfId = 0 <;> simp [hs0, hexp]
    constructor
    · rw [specStep_identity_pendingCmd]
      dsimp only
      simp [List.filter, hexp]
    · rw [specStep_identity_cmdCount, hT0]
      simp [Ne.symm hx]
  · intro hTne hle
    rw [specStep_identity_pendingCmd]
    dsimp only
    have hxT : (x ≠ specTarget expiry ⟨s0.pendingTel, [(x, (cbs, t0))], x, some t0⟩ t1 selfId) :=
      Ne.symm hTne
    simp [List.filter, hxT, not_lt.mpr hle, List.lookup]

/-- Witness for C5 on a concrete command to id 3 corroborated by an
identity frame self-reporting 3 within the expiry window. -/
theorem command_corroboration_witness :
    specTarget 1 ((specStep 1 ⟨none, [], 0, none⟩ 0 (.command 3 [5])).1) 0 3 = 3 ↔
      ((3 : Nat) ≠ 0 ∧ (0 : ℚ) - 0 ≤ 1) :=
  (command_corroboration 1 3 3 [5] [6] 0 0 ⟨none, [], 0, none⟩ _
    (by decide) rfl rfl).2.1

/-! ### Claim theorem for the register decoder -/

lemma decode_fields_nil (packet : List Nat) : decode_fields packet [] = [] := rfl

lemma decode_fields_cons (packet : List Nat) (off : Nat) (e : RegEntry)
    (rest : List (Nat × RegEntry)) :
    decode_fields packet ((off, e) :: rest) =
      if packet.length ≤ 6 + off then decode_fields packet rest
      else
        match get_value packet (6 + off) e.dty with
        | none => decode_fields packet rest
        | some raw =>
          (e.name, match e.conv raw with | some v => v | none => raw) ::
            decode_fields packet rest := rfl

lemma payloadLookup_cons (nm k : String) (v : Val) (rest : List (String × Val)) :
    payloadLookup nm ((k, v) :: rest) =
      if nm = k then some v else payloadLookup nm rest := rfl

lemma payloadLookup_decode_not_mem (packet : List Nat) :
    ∀ (reg : List (Nat × RegEntry)) (nm : String),
      nm ∉ reg.map (fun pr => pr.2.name) →
      payloadLookup nm (decode_fields packet reg) = none := by
  intro reg
  induction reg with
  | nil => intro nm _; rfl
  | cons pr rest ih =>
    intro nm hnm
    obtain ⟨off, e⟩ := pr
    simp only [List.map_cons, List.mem_cons, not_or] at hnm
    rw [decode_fields_cons]
    by_cases hskip : packet.length ≤ 6 + off
    · rw [if_pos hskip]
      exact ih nm hnm.2
    · rw [if_neg hskip]
      cases hv : get_value packet (6 + off) e.dty with
      | none => exact ih nm hnm.2
      | some raw =>
        rw [payloadLookup_cons, if_neg hnm.1]
        exact ih nm hnm.2

/-- The value the decoded payload binds for a registry entry's name,
under distinct entry names, is exactly what the entry contributes on
its own. -/
lemma payloadLookup_decode (packet : List Nat) :
    ∀ (reg : List (Nat × RegEntry)) (off : Nat) (e : RegEntry),
      (reg.map (fun pr => pr.2.name)).Nodup → (off, e) ∈ reg →
      payloadLookup e.name (decode_fields packet reg) = entryResult packet off e := by
  intro reg
  induction reg with
  | nil =>
    intro off e _ hm
    simp at hm
  | cons pr rest ih =>
    intro off e hnd hm
    obtain ⟨off2, e2⟩ := pr
    simp only [List.map_cons, List.nodup_cons] at hnd
    rw [decode_fields_cons]
    rcases List.mem_cons.mp hm with hhead | htail
    · injection hhead with h1 h2
      subst h1
      subst h2
      have hnm : e.name ∉ rest.map (fun pr => pr.2.name) := hnd.1
      by_cases hskip : packet.length ≤ 6 + off
      · rw [if_pos hskip, payloadLookup_decode_not_mem packet rest e.name hnm]
        simp only [entryResult, if_pos hskip]
      · rw [if_neg hskip]
        cases hv : get_value packet (6 + off) e.dty with
        | none =>
          rw [payloadLookup_decode_not_mem packet rest e.name hnm]
          simp only [entryResult, if_neg hskip, hv]
        | some raw =>
          rw [payloadLookup_cons, if_pos rfl]
          simp only [entryResult, if_neg hskip, hv]
    · have hne : e.name ≠ e2.name := by
        intro hEq
        exact hnd.1 (hEq ▸ List.mem_map.mpr ⟨(off, e), htail, rfl⟩)
      by_cases hskip : packet.length ≤ 6 + off2
      · rw [if_pos hskip]
        exact ih off e hnd.2 htail
      · rw [if_neg hskip]
        cases hv : get_value packet (6 + off2) e2.dty with
        | none => exact ih off e hnd.2 htail
        | some raw =>
          rw [payloadLookup_cons, if_neg hne]
          exact ih off e hnd.2 htail

/-- C8: per-field decode containment — for every packet, registry, and
packet type the registry knows, with distinct field names: every entry
whose absolute offset `6 + offset` is not below the packet length is
silently absent from the decoded mapping; every in-range entry whose
raw read succeeds but whose converter raises is present with the
unscaled raw value; and each entry's binding is exactly what decoding
that entry alone yields, so one entry's failure never affects another
(decode itself is a total function — every fallible Python operation is
an explicit `Option` here). -/
theorem decode_containment (regmap : List (Nat × List (Nat × RegEntry)))
    (packet : List Nat) (kind : Nat) (reg : List (Nat × RegEntry))
    (hk : regmap.lookup kind = some reg)
    (hnd : (reg.map (fun pr => pr.2.name)).Nodup) :
    (∀ off e, (off, e) ∈ reg → packet.length ≤ 6 + off →
      payloadLookup e.name (decode_packet regmap packet kind) = none)
  ∧ (∀ off e raw, (off, e) ∈ reg → ¬ packet.length ≤ 6 + off →
      get_value packet (6 + off) e.dty = some raw → e.conv raw = none →
      payloadLookup e.name (decode_packet regmap packet kind) = some raw)
  ∧ (∀ off e, (off, e) ∈ reg →
      payloadLookup e.name (decode_packet regmap packet kind) =
        payloadLookup e.name (decode_fields packet [(off, e)])) := by
  have hdp : decode_packet regmap packet kind = decode_fields packet reg := by
    simp [decode_packet, hk]
  rw [hdp]
  refine ⟨?_, ?_, ?_⟩
  · intro off e hm hskip
    rw [payloadLookup_decode packet reg off e hnd hm]
    simp only [entryResult, if_pos hskip]
  · intro off e raw hm hskip hv hc
    rw [payloadLookup_decode packet reg off e hnd hm]
    simp only [entryResult, if_neg hskip, hv, hc]
  · intro off e hm
    rw [payloadLookup_decode packet reg off e hnd hm,
      payloadLookup_decode packet [(off, e)] off e (by simp) (by simp)]

/-- A two-entry witness registry: field a's converter always raises,
field b sits past the packet's end. -/
def wReg : List (Nat × RegEntry) :=
  [(0, ⟨"a", .u8, fun _ => none⟩), (400, ⟨"b", .u8, fun v => some v⟩)]

/-- Witness for C8 on an 8-byte packet against `wReg`: the raising
converter falls back to the raw byte 10, and the out-of-range entry is
absent. -/
theorem decode_containment_witness :
    payloadLookup "a" (decode_packet [(1, wReg)] [0, 0, 0, 0, 0, 0, 10, 20] 1) =
      some (.num 10)
  ∧ payloadLookup "b" (decode_packet [(1, wReg)] [0, 0, 0, 0, 0, 0, 10, 20] 1) = none :=
  ⟨(decode_containment [(1, wReg)] [0, 0, 0, 0, 0, 0, 10, 20] 1 wReg rfl
      (by simp [wReg])).2.1 0 ⟨"a", .u8, fun _ => none⟩ (.num 10)
      (List.Mem.head _) (by simp) rfl rfl,
   (decode_containment [(1, wReg)] [0, 0, 0, 0, 0, 0, 10, 20] 1 wReg rfl
      (by simp [wReg])).1 400 ⟨"b", .u8, fun v => some v⟩
      (List.Mem.tail _ (List.Mem.head _)) (by simp)⟩

end JkBms
